import Mathlib

/-!
Verification development for the module-registry core of `@ngxs/store`
(`src/packages/store/src/internal/internals.ts`).

The TypeScript source is shallowly embedded:
* JavaScript values are modelled by the inductive type `JSVal` (plain data:
  `undefined`, `null`, booleans, numbers as `Int`, strings, and string-keyed
  plain objects).  Host-object exotica (getters, proxies, prototype-chain
  properties such as `"constructor"`, boxed-primitive own properties like
  `"length"` on strings, floating-point `NaN`) are outside the model: the
  code under verification only ever combines values with `&&` and property
  access, and every claim is about plain data objects.
* Fallible JavaScript evaluation (property access throwing `TypeError` on
  `null`/`undefined` bases, `throw new Error(...)`) is modelled with
  `Except String` / explicit error types.
* JavaScript objects used as string-keyed dictionaries (`PlainObjectOf`) are
  modelled as association lists in key-insertion order, which is the
  enumeration order of `for ... in` and `Object.keys` for the non-numeric
  keys used here.
* Recursion that is unbounded in the source (`topologicalSort`'s `visit`,
  `findFullParentPath`'s `visit`) is given explicit fuel; exhausting the fuel
  models the stack overflow / divergence of the original and is proved
  unreachable wherever a claim needs it.
-/

/-- A plain JavaScript runtime value, as far as the accessor code needs it:
`undefined`, `null`, booleans, (integer) numbers, strings and plain objects
with string keys in insertion order. -/
inductive JSVal where
  | undefined : JSVal
  | null : JSVal
  | bool : Bool → JSVal
  | num : Int → JSVal
  | str : String → JSVal
  | obj : List (String × JSVal) → JSVal

/-- JavaScript truthiness: `undefined`, `null`, `false`, `0` and `""` are
falsy; every object is truthy. -/
def JSVal.truthy : JSVal → Bool
  | .undefined => false
  | .null => false
  | .bool b => b
  | .num n => n != 0
  | .str s => s != ""
  | .obj _ => true

/-- Total property read used once the base is known not to throw: own
property of an object, `undefined` for a missing key or a primitive base. -/
def JSVal.getPropD (v : JSVal) (key : String) : JSVal :=
  match v with
  | .obj fields =>
    match fields.find? (fun p => p.1 = key) with
    | some p => p.2
    | none => .undefined
  | _ => .undefined

/-- JavaScript property access `v[key]`: throws a `TypeError` when the base
is `null` or `undefined`, otherwise yields the own property (or `undefined`
when absent / on a primitive base). -/
def JSVal.getProp (v : JSVal) (key : String) : Except String JSVal :=
  match v with
  | .undefined => .error ("TypeError: cannot read properties of undefined (reading " ++ key ++ ")")
  | .null => .error ("TypeError: cannot read properties of null (reading " ++ key ++ ")")
  | v => .ok (v.getPropD key)

/-- `compliantPropGetter` (internals.ts, lines 146-149): the interpreted
accessor.  `paths.slice()` is a pure copy, and the returned closure is
`obj => copyOfPaths.reduce((acc, part) => acc && acc[part], obj)`.
JavaScript `acc && acc[part]` yields `acc` itself when `acc` is falsy
(without evaluating the access) and `acc[part]` otherwise. -/
def compliantPropGetter (paths : List String) : JSVal → Except String JSVal :=
  fun obj =>
    paths.foldlM (fun acc part => if acc.truthy then acc.getProp part else .ok acc) obj

/-- The chained unguarded access `store.p₁.p₂...pₙ` appearing as one conjunct
of the expression synthesised by `fastPropGetter`. -/
def chainAccess (root : JSVal) (segs : List String) : Except String JSVal :=
  segs.foldlM JSVal.getProp root

/-- Left-to-right evaluation of the conjunction
`store.p₁ && store.p₁.p₂ && ... && store.p₁...pₙ`: each conjunct re-reads the
whole chain from the root, and evaluation stops at the first falsy conjunct,
whose value is the result. -/
def fastConj (root : JSVal) : List String → List String → Except String JSVal
  | pre, [] => chainAccess root pre
  | pre, p :: ps => do
    let v ← chainAccess root pre
    if v.truthy then fastConj root (pre ++ [p]) ps else .ok v

/-- `fastPropGetter` (internals.ts, lines 158-172): the compiled accessor.
For segments `[p₁, ..., pₙ]` (n ≥ 1) it builds the source text
`store.p₁ && store.p₁.p₂ && ... && store.p₁...pₙ` and wraps it in
`new Function('store', 'return ' + expr + ';')`.  For the empty segment list,
`segments[0]` is `undefined`, so the synthesised body is
`return store.undefined;` — a lookup of the property literally named
`"undefined"`. -/
def fastPropGetter (paths : List String) : JSVal → Except String JSVal :=
  fun store =>
    match paths with
    | [] => store.getProp "undefined"
    | p :: ps => fastConj store [p] ps

/-- `CompatibilityOptions.strictContentSecurityPolicy` as read by
`propGetter`; the surrounding option objects are optional, hence the
`Option` layers. -/
structure CompatibilityOptions where
  strictContentSecurityPolicy : Option Bool

/-- The slice of `NgxsConfig` that `propGetter` consults. -/
structure NgxsConfig where
  compatibility : Option CompatibilityOptions

/-- `propGetter` (internals.ts, lines 181-187): selects the interpreted
accessor when `config && config.compatibility &&
config.compatibility.strictContentSecurityPolicy` is truthy, the compiled
one otherwise. -/
def propGetter (paths : List String) (config : Option NgxsConfig) :
    JSVal → Except String JSVal :=
  match config with
  | some c =>
    match c.compatibility with
    | some compat =>
      match compat.strictContentSecurityPolicy with
      | some true => compliantPropGetter paths
      | _ => fastPropGetter paths
    | none => fastPropGetter paths
  | none => fastPropGetter paths

/-! ### The adjacency map and derived notions -/

/-- `StateKeyGraph = PlainObjectOf<string[]>`: a JavaScript object mapping a
module name to the names of its direct children, modelled as an association
list in key-insertion order (the `for ... in` / `Object.keys` enumeration
order). -/
abbrev StateKeyGraph := List (String × List String)

/-- Property read `graph[name]` on the adjacency object: the first binding
for `name` (a JavaScript object has at most one). -/
def lookupG (g : StateKeyGraph) (name : String) : Option (List String) :=
  (g.find? (fun p => p.1 = name)).map (fun p => p.2)

/-- `Object.keys(graph)`, in insertion order. -/
def keysG (g : StateKeyGraph) : List String := g.map (fun p => p.1)

/-- The assignment `m[k] = v` on a JavaScript object: overwrites in place if
the key exists (keeping its enumeration position), otherwise appends. -/
def setKey {α : Type} (m : List (String × α)) (k : String) (v : α) :
    List (String × α) :=
  if m.any (fun p => p.1 = k) then
    m.map (fun p => if p.1 = k then (k, v) else p)
  else m ++ [(k, v)]

/-- The dependency edge relation of an adjacency map: `parent` requires
(child) `dep`. -/
def hasEdge (g : StateKeyGraph) (parent dep : String) : Prop :=
  ∃ deps, lookupG g parent = some deps ∧ dep ∈ deps

/-- Reflexive-transitive closure of `hasEdge`. -/
inductive Reaches (g : StateKeyGraph) : String → String → Prop where
  | refl {a : String} : Reaches g a a
  | head {a b c : String} : hasEdge g a b → Reaches g b c → Reaches g a c

/-- The adjacency map contains a (directed) cycle: some node requires a node
that transitively requires it back. -/
def hasCycle (g : StateKeyGraph) : Prop :=
  ∃ a b, hasEdge g a b ∧ Reaches g b a

/-- The closed-world invariant of an adjacency map (spec §3): every name
referenced as a child exists as a key. -/
def ClosedWorld (g : StateKeyGraph) : Prop :=
  ∀ p ∈ g, ∀ d ∈ p.2, d ∈ keysG g

/-! ### `buildGraph` -/

/-- The slice of `StateClassInternal` that `buildGraph` reads: the identity
of the class object (JavaScript reference identity, modelled by a `Nat` id),
and the `name` and `children` fields of its attached `ɵMETA_KEY` metadata
(the source reads both through non-null assertions; `children` references
other state classes, modelled by their ids, and an absent `children` is
normalised by `children || []` to the empty list). -/
structure StateClassInternal where
  id : Nat
  name : String
  children : List Nat

/-- The message of the error thrown by `buildGraph` for an unregistered
child (`${stateClass}` stringifies the class object, here its id). -/
def childNotFoundMessage (child : Nat) : String :=
  "Child state not found: " ++ toString child ++
    ". \r\nYou may have forgotten to add states to module"

/-- The inner `findName` of `buildGraph` (internals.ts, lines 208-220):
identity-search the full class list for the child (`g === stateClass`); in
dev mode a miss throws the descriptive registration error, a hit returns the
metadata name of the found class. -/
def findName (stateClasses : List StateClassInternal) (child : Nat) :
    Except String String :=
  match stateClasses.find? (fun g => g.id = child) with
  | none => .error (childNotFoundMessage child)
  | some meta => .ok meta.name

/-- `buildGraph` (internals.ts, lines 207-230): folds the class list into an
adjacency object `result[name] = children.map(findName)`.  A thrown
`findName` error aborts the whole `reduce`. -/
def buildGraph (stateClasses : List StateClassInternal) :
    Except String StateKeyGraph :=
  stateClasses.foldlM
    (fun result stateClass => do
      let childNames ← stateClass.children.mapM (findName stateClasses)
      pure (setKey result stateClass.name childNames))
    []

/-! ### `findFullParentPath` -/

/-- The inner `visit` of `findFullParentPath` (internals.ts, lines 277-285):
scan the keys in enumeration order for the first whose child list contains
`target`; on a hit, recurse on that parent and return `parent.key` (or just
`key` when the recursion returned `null`); with no hit return `null`
(modelled `some none`).  The recursion is unbounded in the source — a
multi-parent cycle loops forever — so it takes fuel, and `none` models
divergence. -/
def visitParent (g : StateKeyGraph) : Nat → String → Option (Option String)
  | 0, _ => none
  | fuel + 1, target =>
    match g.find? (fun p => p.2.contains target) with
    | none => some none
    | some p =>
      match visitParent g fuel p.1 with
      | none => none
      | some none => some (some p.1)
      | some (some parent) => some (some (parent ++ "." ++ p.1))

/-- The write-back `newObj[key] = parent ? parent + "." + key : key`
performed per key by `findFullParentPath`.  Note the truthiness test: an
empty-string `parent` is treated like `null` here, although the inner
`visit` used the strict test `parent !== null`. -/
def pathEntry (key : String) : Option String → String
  | none => key
  | some parent => if parent = "" then key else parent ++ "." ++ key

/-- `findFullParentPath` (internals.ts, lines 273-295): for every key of the
adjacency object, compute its ancestor chain with `visit` and store the full
dotted path.  Fuel `g.length + 1` bounds every terminating run of the
original (a longer parent chain would repeat a key and hence diverge);
`none` models divergence. -/
def findFullParentPath (g : StateKeyGraph) :
    Option (List (String × String)) :=
  (keysG g).foldlM
    (fun newObj key =>
      match visitParent g (g.length + 1) key with
      | none => none
      | some parent => some (setKey newObj key (pathEntry key parent)))
    []

/-! ### `topologicalSort` -/

/-- The failure modes of `topologicalSort` in the model: the dev-mode
circular-dependency `Error` (carrying the offending dependency, the
requiring node, and the ancestor chain at the throw site), the `TypeError`
raised by `graph[name].forEach` when `name` is not a key, and fuel
exhaustion (modelling unbounded recursion, proved unreachable). -/
inductive TopoError where
  | circular : String → String → List String → TopoError
  | notAKey : String → TopoError
  | outOfFuel : TopoError

/-- The message of the thrown error, as built by the source:
`Circular dependency 'dep' is required by 'name': a -> b -> c`. -/
def TopoError.message : TopoError → String
  | .circular dep name ancestors =>
    "Circular dependency \x27" ++ dep ++ "\x27 is required by \x27" ++ name ++
      "\x27: " ++ String.intercalate " -> " ancestors
  | .notAKey name => "TypeError: cannot read properties of undefined (reading forEach, at " ++ name ++ ")"
  | .outOfFuel => "stack overflow"

/-- The two mutable variables of `topologicalSort`: the `sorted` output array
and the `visited` flag object (a set of names). -/
structure VisitState where
  sorted : List String
  visited : List String

/-- The inner `visit` of `topologicalSort` (internals.ts, lines 320-347).
`ancestors` is the caller's chain (passed as a fresh copy, so mutation is
local); the body pushes `name`, marks it visited, iterates
`graph[name]` — throwing the circular-dependency error when a dependency is
already in the chain, skipping visited dependencies, recursing
otherwise — and finally appends `name` to `sorted` unless already present
(`sorted.indexOf(name) < 0`). -/
def visit (g : StateKeyGraph) : Nat → String → List String → VisitState →
    Except TopoError VisitState
  | 0, _, _, _ => .error .outOfFuel
  | fuel + 1, name, ancestors, st =>
    let anc := ancestors ++ [name]
    let st1 : VisitState :=
      { st with visited := if name ∈ st.visited then st.visited else st.visited ++ [name] }
    match lookupG g name with
    | none => .error (.notAKey name)
    | some deps => do
      let st2 ← deps.foldlM
        (fun s dep =>
          if dep ∈ anc then .error (.circular dep name anc)
          else if dep ∈ s.visited then pure s
          else visit g fuel dep anc s)
        st1
      pure { st2 with
        sorted := if name ∈ st2.sorted then st2.sorted else st2.sorted ++ [name] }

/-- `topologicalSort` (internals.ts, lines 316-352): depth-first visit of
every key in enumeration order, then reverse the post-order.  Per-call fuel
`g.length + 1` strictly dominates the depth of any chain of distinct keys,
so exhaustion is impossible (proved below). -/
def topologicalSort (g : StateKeyGraph) : Except TopoError (List String) := do
  let st ← (keysG g).foldlM
    (fun st k => visit g (g.length + 1) k [] st) ⟨[], []⟩
  pure st.sorted.reverse

/-! ### The metadata store (`ensureStoreMetadata` / `getStoreMetadata`) -/

/-- `MetaDataModel` (internals.ts, lines 30-37) as far as the claims read it:
`name`, the `actions` dictionary (handler lists, opaque to this
development), `defaults`, the mutable `path` slot and the declared
`children` (state-class ids).  The self-referential `makeRootSelector`
closure of the default record is not consulted by any claim and is omitted
from the record model. -/
structure MetaDataModel where
  name : Option String
  actions : List (String × JSVal)
  defaults : JSVal
  path : Option String
  children : List Nat

/-- The fresh record built by `ensureStoreMetadata` on first attachment:
`{ name: null, actions: {}, defaults: {}, path: null, children: [] }`. -/
def defaultMetadata : MetaDataModel :=
  { name := none, actions := [], defaults := .obj [], path := none, children := [] }

/-- The mutable world of metadata attachment: `assoc` models the
define-once, non-writable `ɵMETA_KEY` property (state-class id ↦ record
reference), `heap` gives each record reference its current contents, and
`nextRef` is the allocator.  Record references make JavaScript reference
identity ("the same record instance") explicit. -/
structure MetaStore where
  assoc : List (Nat × Nat)
  heap : List (Nat × MetaDataModel)
  nextRef : Nat

/-- A store is well formed when every allocated reference is below the
allocator mark and every attached reference dereferences. -/
def MetaStore.WF (s : MetaStore) : Prop :=
  (∀ q ∈ s.heap, q.1 < s.nextRef) ∧
    (∀ q ∈ s.assoc, ∃ m, s.heap.lookup q.2 = some m)

/-- `getStoreMetadata` (internals.ts, lines 102-104): `target[ɵMETA_KEY]!`,
i.e. the record reference attached to the class, if any. -/
def getStoreMetadata (target : Nat) (s : MetaStore) : Option Nat :=
  s.assoc.lookup target

/-- Dereference a record. -/
def readMetadata (r : Nat) (s : MetaStore) : Option MetaDataModel :=
  s.heap.lookup r

/-- `ensureStoreMetadata` (internals.ts, lines 79-95): when the class has no
own `ɵMETA_KEY` property, allocate the default record and attach it with
`Object.defineProperty`; then return `getStoreMetadata(target)`. -/
def ensureStoreMetadata (target : Nat) (s : MetaStore) :
    Option Nat × MetaStore :=
  let s' :=
    if (s.assoc.lookup target).isSome then s
    else
      { assoc := s.assoc ++ [(target, s.nextRef)],
        heap := s.heap ++ [(s.nextRef, defaultMetadata)],
        nextRef := s.nextRef + 1 }
  (getStoreMetadata target s', s')

/-- The write-back `meta.path = ...` performed by the registration code on a
record obtained from the store, through its reference. -/
def writeMetadataPath (r : Nat) (p : String) (s : MetaStore) : MetaStore :=
  { s with
    heap := s.heap.map (fun q => if q.1 = r then (q.1, { q.2 with path := some p }) else q) }

/-! ### Lemmas about the accessor strategies -/

@[simp] lemma okBind {ε α β : Type} (a : α) (f : α → Except ε β) :
    (Except.ok a >>= f : Except ε β) = f a := rfl

@[simp] lemma errorBind {ε α β : Type} (e : ε) (f : α → Except ε β) :
    (Except.error e >>= f : Except ε β) = Except.error e := rfl

@[simp] lemma purePEq {ε α : Type} (a : α) : (pure a : Except ε α) = Except.ok a := rfl

@[simp] lemma bindOkId {ε α : Type} (x : Except ε α) :
    (x >>= fun a => Except.ok a : Except ε α) = x := by
  cases x <;> rfl

lemma truthy_getProp {v : JSVal} (k : String) (h : v.truthy = true) :
    v.getProp k = .ok (v.getPropD k) := by
  cases v <;> simp_all [JSVal.truthy, JSVal.getProp]

lemma chainAccess_snoc (root : JSVal) (pre : List String) (p : String) :
    chainAccess root (pre ++ [p]) =
      (chainAccess root pre) >>= (fun v => v.getProp p) := by
  simp [chainAccess, List.foldlM_append]

lemma compliant_falsy {v : JSVal} (rest : List String) (h : v.truthy = false) :
    compliantPropGetter rest v = .ok v := by
  induction rest with
  | nil => rfl
  | cons p ps ih =>
    simp only [compliantPropGetter, List.foldlM_cons, h, if_neg Bool.false_ne_true]
    simpa [compliantPropGetter] using ih

lemma fastConj_eq_compliant (root : JSVal) :
    ∀ (rest pre : List String) (v : JSVal), chainAccess root pre = .ok v →
      fastConj root pre rest = compliantPropGetter rest v := by
  intro rest
  induction rest with
  | nil =>
    intro pre v h
    simp [fastConj, h, compliantPropGetter]
  | cons p ps ih =>
    intro pre v h
    by_cases ht : v.truthy = true
    · have hchain : chainAccess root (pre ++ [p]) = .ok (v.getPropD p) := by
        rw [chainAccess_snoc, h]
        simp [truthy_getProp p ht]
      have hrec := ih (pre ++ [p]) (v.getPropD p) hchain
      simp only [fastConj, h, okBind, ht, if_true]
      rw [hrec]
      simp only [compliantPropGetter, List.foldlM_cons, ht, if_true,
        truthy_getProp p ht, okBind]
    · have hf : v.truthy = false := by simpa using ht
      simp only [fastConj, h, okBind, hf]
      rw [compliant_falsy (p :: ps) hf]
      simp

lemma compliant_cons {root : JSVal} (p : String) (ps : List String)
    (ht : root.truthy = true) :
    compliantPropGetter (p :: ps) root = compliantPropGetter ps (root.getPropD p) := by
  simp [compliantPropGetter, List.foldlM_cons, ht, truthy_getProp p ht]

lemma compliant_append (pre post : List String) (root : JSVal) :
    compliantPropGetter (pre ++ post) root =
      (compliantPropGetter pre root) >>= (fun v => compliantPropGetter post v) := by
  simp [compliantPropGetter, List.foldlM_append]

lemma compliant_total (paths : List String) :
    ∀ root : JSVal, ∃ v, compliantPropGetter paths root = .ok v := by
  induction paths with
  | nil => exact fun root => ⟨root, rfl⟩
  | cons p ps ih =>
    intro root
    by_cases ht : root.truthy = true
    · obtain ⟨v, hv⟩ := ih (root.getPropD p)
      exact ⟨v, by rw [compliant_cons p ps ht]; exact hv⟩
    · have hf : root.truthy = false := by simpa using ht
      exact ⟨root, compliant_falsy _ hf⟩

lemma fast_error_at_undefined (paths : List String) :
    ∃ m, fastPropGetter paths JSVal.undefined = .error m := by
  cases paths with
  | nil => exact ⟨_, rfl⟩
  | cons p ps =>
    cases ps with
    | nil => exact ⟨_, rfl⟩
    | cons q qs => exact ⟨_, rfl⟩

lemma getters_ne (paths : List String) :
    compliantPropGetter paths ≠ fastPropGetter paths := by
  intro h
  obtain ⟨m, hm⟩ := fast_error_at_undefined paths
  have h0 : compliantPropGetter paths JSVal.undefined = .ok JSVal.undefined :=
    compliant_falsy paths rfl
  rw [h, hm] at h0
  exact Except.noConfusion h0

/-! ### Claims about the accessor strategies -/

/-- Claim C1, counterexample: the path `["a","b"]` applied to the root
`{a: 0}` does not return `undefined` under either strategy — both return
the falsy intermediate value `0` itself (`0 && ...` evaluates to `0`). -/
theorem claim1_counterexample :
    compliantPropGetter ["a", "b"] (.obj [("a", .num 0)]) = .ok (.num 0) ∧
    fastPropGetter ["a", "b"] (.obj [("a", .num 0)]) = .ok (.num 0) ∧
    (Except.ok (JSVal.num 0) : Except String JSVal) ≠ .ok .undefined := by
  refine ⟨rfl, rfl, fun h => ?_⟩
  injection h with h
  exact JSVal.noConfusion h

/-- Claim C1, amended: for every nonempty segment sequence and every root
that is an object, the interpreted and the compiled accessor return
identical results; when an intermediate segment evaluates as falsy, both
return that falsy value itself (which is `undefined` exactly when the value
there is `undefined`, e.g. for an absent key) — in particular `["a","b"]`
against `{a: 0}` returns `0` under both strategies. -/
theorem accessorStrategies_agree :
    (∀ (p : String) (ps : List String) (fields : List (String × JSVal)),
      fastPropGetter (p :: ps) (.obj fields) =
        compliantPropGetter (p :: ps) (.obj fields)) ∧
    compliantPropGetter ["a", "b"] (.obj [("a", .num 0)]) = .ok (.num 0) ∧
    fastPropGetter ["a", "b"] (.obj [("a", .num 0)]) = .ok (.num 0) := by
  refine ⟨fun p ps fields => ?_, rfl, rfl⟩
  have hroot : (JSVal.obj fields).truthy = true := rfl
  have h1 : chainAccess (.obj fields) [p] = .ok ((JSVal.obj fields).getPropD p) := by
    simp [chainAccess, List.foldlM_cons, truthy_getProp p hroot]
  calc fastPropGetter (p :: ps) (.obj fields)
      = fastConj (.obj fields) [p] ps := rfl
    _ = compliantPropGetter ps ((JSVal.obj fields).getPropD p) :=
        fastConj_eq_compliant _ ps [p] _ h1
    _ = compliantPropGetter (p :: ps) (.obj fields) :=
        (compliant_cons p ps hroot).symm

/-- Claim C5, counterexample: the interpreted accessor does not
short-circuit *to `undefined`* on a falsy intermediate: on `["a","b"]`
against `{a: 0}` it returns `0`, not `undefined`. -/
theorem claim5_counterexample :
    compliantPropGetter ["a", "b"] (.obj [("a", .num 0)]) = .ok (.num 0) ∧
    (Except.ok (JSVal.num 0) : Except String JSVal) ≠ .ok .undefined := by
  refine ⟨rfl, fun h => ?_⟩
  injection h with h
  exact JSVal.noConfusion h

/-- Claim C5, amended: the interpreted accessor walks the segments one at a
time against the root and short-circuits the moment any intermediate value
is falsy, ignoring all remaining segments and returning that falsy value
itself — which is `undefined` exactly when the segment was absent (or held
`undefined`). -/
theorem compliantPropGetter_walk :
    (∀ (p : String) (ps : List String) (root : JSVal), root.truthy = true →
      compliantPropGetter (p :: ps) root = compliantPropGetter ps (root.getPropD p)) ∧
    (∀ (pre post : List String) (root v : JSVal),
      compliantPropGetter pre root = .ok v → v.truthy = false →
      compliantPropGetter (pre ++ post) root = .ok v) ∧
    (∀ (pre post : List String) (p : String) (root : JSVal)
      (fields : List (String × JSVal)),
      compliantPropGetter pre root = .ok (.obj fields) →
      fields.find? (fun q => q.1 = p) = none →
      compliantPropGetter (pre ++ p :: post) root = .ok .undefined) := by
  refine ⟨fun p ps root ht => compliant_cons p ps ht, ?_, ?_⟩
  · intro pre post root v hpre hfalsy
    rw [compliant_append, hpre, okBind, compliant_falsy post hfalsy]
  · intro pre post p root fields hpre habsent
    rw [compliant_append, hpre, okBind]
    have hobj : (JSVal.obj fields).truthy = true := rfl
    rw [compliant_cons p post hobj]
    have : (JSVal.obj fields).getPropD p = .undefined := by
      simp [JSVal.getPropD, habsent]
    rw [this]
    exact compliant_falsy post rfl

/-- Witness for `compliantPropGetter_walk` at concrete inputs. -/
theorem compliantPropGetter_walk_witness :
    compliantPropGetter ["a", "b"] (.obj [("a", .num 0)]) = .ok (.num 0) ∧
    compliantPropGetter ["a", "x", "y"] (.obj [("a", .obj [("b", .num 7)])]) =
      .ok .undefined :=
  ⟨compliantPropGetter_walk.2.1 ["a"] ["b"] (.obj [("a", .num 0)]) (.num 0) rfl rfl,
   compliantPropGetter_walk.2.2 ["a"] ["y"] "x" (.obj [("a", .obj [("b", .num 7)])])
     [("b", .num 7)] rfl rfl⟩

/-- Claim C10: the closure returned by the interpreted accessor is total —
it never throws for any root value (including `null`, `undefined` or a
primitive); when the root itself is falsy it returns the root unchanged,
and for the empty segment sequence it returns the root unchanged. -/
theorem compliantPropGetter_total (paths : List String) (root : JSVal) :
    (∃ v, compliantPropGetter paths root = .ok v) ∧
    (root.truthy = false → compliantPropGetter paths root = .ok root) ∧
    compliantPropGetter [] root = .ok root :=
  ⟨compliant_total paths root, fun hf => compliant_falsy paths hf, rfl⟩

/-- Witness for `compliantPropGetter_total` at concrete inputs. -/
theorem compliantPropGetter_total_witness :
    compliantPropGetter ["a"] JSVal.null = .ok JSVal.null :=
  (compliantPropGetter_total ["a"] JSVal.null).2.1 rfl

/-- The truthiness condition tested by `propGetter`, spelled out. -/
def strictCspOn (config : Option NgxsConfig) : Prop :=
  ∃ c compat, config = some c ∧ c.compatibility = some compat ∧
    compat.strictContentSecurityPolicy = some true

/-- Claim C8: for every segment sequence and every configuration,
`propGetter` returns the interpreted (CSP-compliant) accessor exactly when
the configuration's strict-content-security-policy flag is (present and)
`true`, and the compiled accessor otherwise; the choice depends only on the
configuration argument. -/
theorem propGetter_selection (paths : List String) (config : Option NgxsConfig) :
    (propGetter paths config = compliantPropGetter paths ↔ strictCspOn config) ∧
    (propGetter paths config = fastPropGetter paths ↔ ¬ strictCspOn config) := by
  have hne := getters_ne paths
  rcases config with _ | ⟨_ | ⟨_ | b⟩⟩
  · constructor
    · constructor
      · intro h
        exact absurd h.symm hne
      · rintro ⟨c, compat, hc, _, _⟩
        exact Option.noConfusion hc
    · constructor
      · rintro - ⟨c, compat, hc, _, _⟩
        exact Option.noConfusion hc
      · intro
        rfl
  · constructor
    · constructor
      · intro h
        exact absurd h.symm hne
      · rintro ⟨c, compat, hc, hcompat, _⟩
        cases hc
        exact Option.noConfusion hcompat
    · constructor
      · rintro - ⟨c, compat, hc, hcompat, _⟩
        cases hc
        exact Option.noConfusion hcompat
      · intro
        rfl
  · constructor
    · constructor
      · intro h
        exact absurd h.symm hne
      · rintro ⟨c, compat, hc, hcompat, hs⟩
        cases hc
        cases hcompat
        exact Option.noConfusion hs
    · constructor
      · rintro - ⟨c, compat, hc, hcompat, hs⟩
        cases hc
        cases hcompat
        exact Option.noConfusion hs
      · intro
        rfl
  · cases b with
    | false =>
      constructor
      · constructor
        · intro h
          exact absurd h.symm hne
        · rintro ⟨c, compat, hc, hcompat, hs⟩
          cases hc
          cases hcompat
          simp at hs
      · constructor
        · rintro - ⟨c, compat, hc, hcompat, hs⟩
          cases hc
          cases hcompat
          simp at hs
        · intro
          rfl
    | true =>
      constructor
      · constructor
        · intro
          exact ⟨_, _, rfl, rfl, rfl⟩
        · intro
          rfl
      · constructor
        · intro h
          exact absurd h hne
        · intro hn
          exact absurd ⟨_, _, rfl, rfl, rfl⟩ hn

/-! ### Lemmas about the metadata store -/

lemma lookupPairs_mem {β : Type} {l : List (Nat × β)} {k : Nat} {v : β}
    (h : l.lookup k = some v) : (k, v) ∈ l := by
  induction l with
  | nil => exact Option.noConfusion h
  | cons q l ih =>
    obtain ⟨k1, v1⟩ := q
    rw [List.lookup] at h
    by_cases hk : k = k1
    · subst hk
      rw [show (k == k) = true by simp] at h
      injection h with h
      subst h
      exact List.mem_cons_self _ _
    · rw [show (k == k1) = false by simpa using hk] at h
      exact List.mem_cons_of_mem _ (ih h)

lemma lookup_append_right {β : Type} {l : List (Nat × β)} {k : Nat} (v : β)
    (h : l.lookup k = none) : (l ++ [(k, v)]).lookup k = some v := by
  induction l with
  | nil => simp [List.lookup]
  | cons q l ih =>
    obtain ⟨k1, v1⟩ := q
    rw [List.lookup] at h
    cases hbeq : (k == k1) with
    | true => rw [hbeq] at h; exact Option.noConfusion h
    | false =>
      rw [hbeq] at h
      rw [List.cons_append, List.lookup, hbeq]
      exact ih h

lemma lookup_patch {l : List (Nat × MetaDataModel)} {r : Nat} (p : String)
    {m : MetaDataModel} (h : l.lookup r = some m) :
    (l.map (fun q => if q.1 = r then (q.1, { q.2 with path := some p }) else q)).lookup r
      = some { m with path := some p } := by
  induction l with
  | nil => exact Option.noConfusion h
  | cons q l ih =>
    obtain ⟨k1, v1⟩ := q
    rw [List.lookup] at h
    rw [List.map_cons]
    by_cases hk : k1 = r
    · subst hk
      rw [show (k1 == k1) = true by simp] at h
      injection h with h
      subst h
      have hhead : (if (k1, v1).1 = k1 then ((k1, v1).1, { (k1, v1).2 with path := some p })
          else (k1, v1)) = (k1, { v1 with path := some p }) := if_pos rfl
      rw [hhead, List.lookup, show (k1 == k1) = true by simp]
    · have hbeq : (r == k1) = false := by
        simp only [beq_eq_false_iff_ne, ne_eq]
        intro he
        exact hk he.symm
      rw [hbeq] at h
      have hhead : (if (k1, v1).1 = r then ((k1, v1).1, { (k1, v1).2 with path := some p })
          else (k1, v1)) = (k1, v1) := if_neg hk
      rw [hhead, List.lookup, show (r == (k1, v1).1) = false from hbeq]
      exact ih h

lemma ensure_of_lookup_some {s : MetaStore} {t r0 : Nat}
    (h : s.assoc.lookup t = some r0) : ensureStoreMetadata t s = (some r0, s) := by
  simp [ensureStoreMetadata, getStoreMetadata, h]

lemma ensure_of_lookup_none {s : MetaStore} {t : Nat}
    (h : s.assoc.lookup t = none) :
    ensureStoreMetadata t s =
      (some s.nextRef,
        { assoc := s.assoc ++ [(t, s.nextRef)],
          heap := s.heap ++ [(s.nextRef, defaultMetadata)],
          nextRef := s.nextRef + 1 }) := by
  simp only [ensureStoreMetadata, h, Option.isSome_none, Bool.false_eq_true, if_false,
    getStoreMetadata]
  rw [lookup_append_right _ h]

/-- Claim C7: `ensureStoreMetadata` is idempotent — called twice on the same
state class it returns the same record reference both times and the second
call changes nothing; a fresh default record (`name` empty, `actions` empty
map, `defaults` empty, `path` empty, `children` empty list) is attached only
on the first call (when nothing was attached before); and a value written
into the record's `path` field through the returned reference is visible to
every later reader of that record. -/
theorem ensureStoreMetadata_idempotent (s : MetaStore) (t : Nat) (hwf : s.WF) :
    (ensureStoreMetadata t (ensureStoreMetadata t s).2).1 = (ensureStoreMetadata t s).1 ∧
    (ensureStoreMetadata t (ensureStoreMetadata t s).2).2 = (ensureStoreMetadata t s).2 ∧
    (s.assoc.lookup t = none →
      ∃ r, (ensureStoreMetadata t s).1 = some r ∧
        readMetadata r (ensureStoreMetadata t s).2 = some defaultMetadata) ∧
    (∀ r p, (ensureStoreMetadata t s).1 = some r →
      ∃ m', readMetadata r (writeMetadataPath r p (ensureStoreMetadata t s).2) = some m' ∧
        m'.path = some p) := by
  cases hl : s.assoc.lookup t with
  | some r0 =>
    have h1 := ensure_of_lookup_some hl
    refine ⟨by simp [h1], by simp [h1], ?_, ?_⟩
    · intro hnone
      simp at hnone
    · intro r p hr
      simp only [h1] at hr
      injection hr with hr
      subst hr
      obtain ⟨m, hm⟩ := hwf.2 (t, r0) (lookupPairs_mem hl)
      refine ⟨{ m with path := some p }, ?_, rfl⟩
      simp only [h1]
      exact lookup_patch p hm
  | none =>
    have h1 := ensure_of_lookup_none hl
    have hheapnone : s.heap.lookup s.nextRef = none := by
      cases hh : s.heap.lookup s.nextRef with
      | none => rfl
      | some m =>
        have := hwf.1 _ (lookupPairs_mem hh)
        exact absurd this (by simp)
    have hreadnew : (s.heap ++ [(s.nextRef, defaultMetadata)]).lookup s.nextRef
        = some defaultMetadata := lookup_append_right _ hheapnone
    have hlook2 : (s.assoc ++ [(t, s.nextRef)]).lookup t = some s.nextRef :=
      lookup_append_right _ hl
    have h2 : ensureStoreMetadata t
        { assoc := s.assoc ++ [(t, s.nextRef)],
          heap := s.heap ++ [(s.nextRef, defaultMetadata)],
          nextRef := s.nextRef + 1 } =
        (some s.nextRef,
          { assoc := s.assoc ++ [(t, s.nextRef)],
            heap := s.heap ++ [(s.nextRef, defaultMetadata)],
            nextRef := s.nextRef + 1 }) := ensure_of_lookup_some hlook2
    refine ⟨by simp [h1, h2], by simp [h1, h2], ?_, ?_⟩
    · intro
      refine ⟨s.nextRef, by simp [h1], ?_⟩
      simp only [h1]
      exact hreadnew
    · intro r p hr
      simp only [h1] at hr
      injection hr with hr
      subst hr
      refine ⟨{ defaultMetadata with path := some p }, ?_, rfl⟩
      simp only [h1]
      exact lookup_patch p hreadnew

/-- Witness for `ensureStoreMetadata_idempotent` at the empty store. -/
theorem ensureStoreMetadata_idempotent_witness :
    (ensureStoreMetadata 0 (ensureStoreMetadata 0 ⟨[], [], 0⟩).2).1 =
      (ensureStoreMetadata 0 (⟨[], [], 0⟩ : MetaStore)).1 ∧
    (∃ r, (ensureStoreMetadata 0 (⟨[], [], 0⟩ : MetaStore)).1 = some r ∧
      readMetadata r (ensureStoreMetadata 0 (⟨[], [], 0⟩ : MetaStore)).2 =
        some defaultMetadata) := by
  have hwf : (⟨[], [], 0⟩ : MetaStore).WF :=
    ⟨fun q hq => absurd hq (List.not_mem_nil q), fun q hq => absurd hq (List.not_mem_nil q)⟩
  obtain ⟨h1, _, h3, _⟩ := ensureStoreMetadata_idempotent ⟨[], [], 0⟩ 0 hwf
  exact ⟨h1, h3 rfl⟩

/-! ### Lemmas about `buildGraph` -/

lemma findName_of_missing {L : List StateClassInternal} {c : Nat}
    (h : ∀ g ∈ L, g.id ≠ c) : findName L c = .error (childNotFoundMessage c) := by
  have hfind : L.find? (fun g => g.id = c) = none := by
    rw [List.find?_eq_none]
    intro g hg
    simpa using h g hg
  rw [findName, hfind]

lemma findName_of_present {L : List StateClassInternal} {c : Nat}
    (h : ¬ ∀ g ∈ L, g.id ≠ c) : ∃ n, findName L c = .ok n := by
  have : ∃ g ∈ L, g.id = c := by
    by_contra hno
    push_neg at hno
    exact h hno
  have hfind : (L.find? (fun g => g.id = c)).isSome := by
    rw [List.find?_isSome]
    obtain ⟨g, hg, he⟩ := this
    exact ⟨g, hg, by simpa using he⟩
  obtain ⟨m, hm⟩ := Option.isSome_iff_exists.mp hfind
  exact ⟨m.name, by rw [findName, hm]⟩

lemma mapM_findName_ok {L : List StateClassInternal} :
    ∀ {cs : List Nat}, (∀ c ∈ cs, ¬ ∀ g ∈ L, g.id ≠ c) →
      ∃ names, cs.mapM (findName L) = .ok names := by
  intro cs
  induction cs with
  | nil => exact fun _ => ⟨[], rfl⟩
  | cons c cs ih =>
    intro h
    obtain ⟨n, hn⟩ := findName_of_present (h c (List.mem_cons_self c cs))
    obtain ⟨names, hnames⟩ := ih (fun d hd => h d (List.mem_cons_of_mem c hd))
    exact ⟨n :: names, by rw [List.mapM_cons, hn, okBind, hnames]; rfl⟩

lemma mapM_findName_error {L : List StateClassInternal} :
    ∀ {cs : List Nat}, (∃ c ∈ cs, ∀ g ∈ L, g.id ≠ c) →
      ∃ c, (∀ g ∈ L, g.id ≠ c) ∧
        cs.mapM (findName L) = .error (childNotFoundMessage c) := by
  intro cs
  induction cs with
  | nil => rintro ⟨c, hc, -⟩; exact absurd hc (List.not_mem_nil c)
  | cons c cs ih =>
    intro h
    by_cases hc : ∀ g ∈ L, g.id ≠ c
    · exact ⟨c, hc, by rw [List.mapM_cons, findName_of_missing hc]; rfl⟩
    · obtain ⟨n, hn⟩ := findName_of_present hc
      have htail : ∃ d ∈ cs, ∀ g ∈ L, g.id ≠ d := by
        obtain ⟨d, hdmem, hdmiss⟩ := h
        rcases List.mem_cons.mp hdmem with he | hd
        · exact absurd (he ▸ hdmiss) hc
        · exact ⟨d, hd, hdmiss⟩
      obtain ⟨d, hdmiss, hmapM⟩ := ih htail
      exact ⟨d, hdmiss, by rw [List.mapM_cons, hn, okBind, hmapM]; rfl⟩

/-- Claim C3: whenever some module in the list declares a child that is not
present in the full module list, `buildGraph` fails with the descriptive
error naming the missing child, rather than producing a graph. -/
theorem buildGraph_missing_child (stateClasses : List StateClassInternal)
    (h : ∃ sc ∈ stateClasses, ∃ c ∈ sc.children, ∀ g ∈ stateClasses, g.id ≠ c) :
    ∃ c, (∀ g ∈ stateClasses, g.id ≠ c) ∧
      buildGraph stateClasses = .error (childNotFoundMessage c) := by
  have haux : ∀ (l : List StateClassInternal) (acc : StateKeyGraph),
      (∃ sc ∈ l, ∃ c ∈ sc.children, ∀ g ∈ stateClasses, g.id ≠ c) →
      ∃ c, (∀ g ∈ stateClasses, g.id ≠ c) ∧
        l.foldlM
          (fun result stateClass => do
            let childNames ← stateClass.children.mapM (findName stateClasses)
            pure (setKey result stateClass.name childNames))
          acc = .error (childNotFoundMessage c) := by
    intro l
    induction l with
    | nil =>
      rintro acc ⟨sc, hsc, -⟩
      exact absurd hsc (List.not_mem_nil sc)
    | cons sc l ih =>
      intro acc h
      by_cases hsc : ∃ c ∈ sc.children, ∀ g ∈ stateClasses, g.id ≠ c
      · obtain ⟨c, hcmiss, hmapM⟩ := mapM_findName_error hsc
        refine ⟨c, hcmiss, ?_⟩
        rw [List.foldlM_cons]
        rw [show (do
            let childNames ← sc.children.mapM (findName stateClasses)
            pure (setKey acc sc.name childNames) : Except String StateKeyGraph)
          = .error (childNotFoundMessage c) by rw [hmapM]; rfl]
        rfl
      · have hall : ∀ c ∈ sc.children, ¬ ∀ g ∈ stateClasses, g.id ≠ c := by
          intro c hcmem hcmiss
          exact hsc ⟨c, hcmem, hcmiss⟩
        obtain ⟨names, hnames⟩ := mapM_findName_ok hall
        have htail : ∃ sd ∈ l, ∃ c ∈ sd.children, ∀ g ∈ stateClasses, g.id ≠ c := by
          obtain ⟨sd, hsdmem, hc⟩ := h
          rcases List.mem_cons.mp hsdmem with he | hd
          · exact absurd (he ▸ hc) hsc
          · exact ⟨sd, hd, hc⟩
        obtain ⟨c, hcmiss, hfold⟩ := ih (setKey acc sc.name names) htail
        refine ⟨c, hcmiss, ?_⟩
        rw [List.foldlM_cons]
        rw [show (do
            let childNames ← sc.children.mapM (findName stateClasses)
            pure (setKey acc sc.name childNames) : Except String StateKeyGraph)
          = .ok (setKey acc sc.name names) by rw [hnames]; rfl]
        rw [okBind]
        exact hfold
  exact haux stateClasses [] h

/-- Witness for `buildGraph_missing_child`: a single module declaring an
unregistered child. -/
theorem buildGraph_missing_child_witness :
    ∃ c, (∀ g ∈ [(⟨0, "cart", [1]⟩ : StateClassInternal)], g.id ≠ c) ∧
      buildGraph [(⟨0, "cart", [1]⟩ : StateClassInternal)] =
        .error (childNotFoundMessage c) :=
  buildGraph_missing_child [⟨0, "cart", [1]⟩]
    ⟨⟨0, "cart", [1]⟩, List.mem_singleton.mpr rfl,
      1, List.mem_singleton.mpr rfl, by decide⟩

/-! ### Lemmas about `findFullParentPath` -/

/-- Generic read of a JavaScript string-keyed object. -/
def lookupS {α : Type} (m : List (String × α)) (k : String) : Option α :=
  (m.find? (fun p => p.1 = k)).map (fun p => p.2)

/-- The first binding (in key-enumeration order) whose child list contains
`target` — the parent that the inner `visit` of `findFullParentPath`
commits to. -/
def firstParent (g : StateKeyGraph) (target : String) :
    Option (String × List String) :=
  g.find? (fun p => p.2.contains target)

lemma visitParent_succ_root {g : StateKeyGraph} {t : String} (f : Nat)
    (hfp : g.find? (fun p => p.2.contains t) = none) :
    visitParent g (f + 1) t = some none := by
  simp only [visitParent, hfp]

lemma visitParent_succ_step {g : StateKeyGraph} {t : String}
    {p : String × List String} (f : Nat)
    (hfp : g.find? (fun q => q.2.contains t) = some p) :
    visitParent g (f + 1) t =
      match visitParent g f p.1 with
      | none => none
      | some none => some (some p.1)
      | some (some parent) => some (some (parent ++ "." ++ p.1)) := by
  simp only [visitParent, hfp]

lemma visitParent_mono {g : StateKeyGraph} :
    ∀ {f : Nat} {t : String} {r : Option String}, visitParent g f t = some r →
      ∀ {f' : Nat}, f ≤ f' → visitParent g f' t = some r := by
  intro f
  induction f with
  | zero => intro t r h; exact Option.noConfusion h
  | succ f ih =>
    intro t r h f' hf
    obtain ⟨f'', rfl⟩ := Nat.exists_eq_add_of_le hf
    rw [show f + 1 + f'' = (f + f'') + 1 by omega]
    cases hfp : g.find? (fun p => p.2.contains t) with
    | none =>
      rw [visitParent_succ_root f hfp] at h
      rw [visitParent_succ_root (f + f'') hfp]
      exact h
    | some p =>
      rw [visitParent_succ_step f hfp] at h
      rw [visitParent_succ_step (f + f'') hfp]
      cases hin : visitParent g f p.1 with
      | none =>
        rw [hin] at h
        exact Option.noConfusion h
      | some w =>
        rw [hin] at h
        rw [ih hin (Nat.le_add_right f f'')]
        exact h

lemma lookupS_cons_eq {α : Type} {q : String × α} {l : List (String × α)}
    {k : String} (h : q.1 = k) : lookupS (q :: l) k = some q.2 := by
  rw [lookupS, List.find?_cons_of_pos _ (by simpa using h)]
  rfl

lemma lookupS_cons_ne {α : Type} {q : String × α} {l : List (String × α)}
    {k : String} (h : ¬ q.1 = k) : lookupS (q :: l) k = lookupS l k := by
  rw [lookupS, List.find?_cons_of_neg _ (by simpa using h)]
  rfl

lemma lookupS_map_patch_ne {α : Type} {l : List (String × α)} {k k' : String}
    (v : α) (h : k' ≠ k) :
    lookupS (l.map (fun p => if p.1 = k' then (k', v) else p)) k = lookupS l k := by
  induction l with
  | nil => rfl
  | cons q l ihm =>
    rw [List.map_cons]
    by_cases hq : q.1 = k'
    · rw [if_pos hq]
      rw [lookupS_cons_ne (q := (k', v)) (fun he => h he)]
      rw [lookupS_cons_ne (fun he => h (hq ▸ he))]
      exact ihm
    · rw [if_neg hq]
      by_cases hqk : q.1 = k
      · rw [lookupS_cons_eq hqk, lookupS_cons_eq hqk]
      · rw [lookupS_cons_ne hqk, lookupS_cons_ne hqk]
        exact ihm

lemma lookupS_setKey_ne {α : Type} {m : List (String × α)} {k k' : String}
    (v : α) (h : k' ≠ k) : lookupS (setKey m k' v) k = lookupS m k := by
  rw [setKey]
  by_cases hany : m.any (fun p => p.1 = k') = true
  · rw [if_pos hany]
    exact lookupS_map_patch_ne v h
  · rw [if_neg hany]
    rw [lookupS, List.find?_append]
    have h1 : List.find? (fun p => p.1 = k) [(k', v)] = none := by
      rw [List.find?_eq_none]
      intro q hq
      rw [List.mem_singleton] at hq
      subst hq
      simpa using h
    rw [h1, Option.or_none]
    rfl

lemma lookupS_append_fresh {α : Type} {m : List (String × α)} {k : String}
    (v : α) (h : ∀ q ∈ m, q.1 ≠ k) : lookupS (m ++ [(k, v)]) k = some v := by
  rw [lookupS, List.find?_append]
  have h1 : m.find? (fun p => p.1 = k) = none := by
    rw [List.find?_eq_none]
    intro q hq
    simpa using h q hq
  rw [h1]
  simp [List.find?]

lemma setKey_fresh {α : Type} {m : List (String × α)} {k : String} (v : α)
    (h : ∀ q ∈ m, q.1 ≠ k) : setKey m k v = m ++ [(k, v)] := by
  rw [setKey, if_neg]
  intro hany
  rw [List.any_eq_true] at hany
  obtain ⟨q, hq, he⟩ := hany
  exact h q hq (by simpa using he)

@[simp] lemma someBind {α β : Type} (a : α) (f : α → Option β) :
    (some a >>= f : Option β) = f a := rfl

@[simp] lemma noneBind {α β : Type} (f : α → Option β) :
    ((none : Option α) >>= f : Option β) = none := rfl

@[simp] lemma pureOEq {α : Type} (a : α) : (pure a : Option α) = some a := rfl

lemma dot_append_ne_empty (a b : String) : a ++ "." ++ b ≠ "" := by
  intro h
  have hlen := congrArg String.length h
  rw [String.length_append, String.length_append,
    show (".").length = 1 from rfl, show ("" : String).length = 0 from rfl] at hlen
  omega

lemma visitParent_result_ne_empty {g : StateKeyGraph}
    (hne : ∀ k ∈ keysG g, k ≠ "") :
    ∀ {f : Nat} {t q : String}, visitParent g f t = some (some q) → q ≠ "" := by
  intro f
  induction f with
  | zero => intro t q h; exact Option.noConfusion h
  | succ f ih =>
    intro t q h
    cases hfp : g.find? (fun p => p.2.contains t) with
    | none =>
      rw [visitParent_succ_root f hfp] at h
      injection h with h
      exact Option.noConfusion h
    | some p =>
      rw [visitParent_succ_step f hfp] at h
      have hp1 : p.1 ≠ "" :=
        hne p.1 (List.mem_map_of_mem _ (List.mem_of_find?_eq_some hfp))
      cases hin : visitParent g f p.1 with
      | none =>
        rw [hin] at h
        exact Option.noConfusion h
      | some w =>
        rw [hin] at h
        cases w with
        | none =>
          injection h with h
          injection h with h
          subst h
          exact hp1
        | some parent =>
          injection h with h
          injection h with h
          subst h
          exact dot_append_ne_empty parent p.1

lemma findFPP_preserves {g : StateKeyGraph} :
    ∀ (ks : List String) (acc M : List (String × String)) (k : String) (v : String),
      (ks.foldlM (fun newObj key =>
        match visitParent g (g.length + 1) key with
        | none => none
        | some parent => some (setKey newObj key (pathEntry key parent))) acc) = some M →
      lookupS acc k = some v → (∀ k' ∈ ks, k' ≠ k) → lookupS M k = some v := by
  intro ks
  induction ks with
  | nil =>
    intro acc M k v hfold hacc _
    rw [List.foldlM_nil] at hfold
    injection hfold with hfold
    subst hfold
    exact hacc
  | cons k0 ks ih =>
    intro acc M k v hfold hacc hne
    rw [List.foldlM_cons] at hfold
    cases hv : visitParent g (g.length + 1) k0 with
    | none =>
      rw [hv] at hfold
      exact Option.noConfusion hfold
    | some r0 =>
      rw [hv] at hfold
      rw [someBind] at hfold
      refine ih _ M k v hfold ?_ (fun k' hk' => hne k' (List.mem_cons_of_mem k0 hk'))
      rw [lookupS_setKey_ne _ (hne k0 (List.mem_cons_self k0 ks))]
      exact hacc

lemma findFPP_entry {g : StateKeyGraph} :
    ∀ (ks : List String) (acc M : List (String × String)),
      ks.Nodup → (∀ k ∈ ks, ∀ q ∈ acc, q.1 ≠ k) →
      (ks.foldlM (fun newObj key =>
        match visitParent g (g.length + 1) key with
        | none => none
        | some parent => some (setKey newObj key (pathEntry key parent))) acc) = some M →
      ∀ k ∈ ks, ∃ r, visitParent g (g.length + 1) k = some r ∧
        lookupS M k = some (pathEntry k r) := by
  intro ks
  induction ks with
  | nil =>
    intro acc M _ _ _ k hk
    exact absurd hk (List.not_mem_nil k)
  | cons k0 ks ih =>
    intro acc M hnd hfresh hfold k hk
    rw [List.foldlM_cons] at hfold
    cases hv : visitParent g (g.length + 1) k0 with
    | none =>
      rw [hv] at hfold
      exact Option.noConfusion hfold
    | some r0 =>
      rw [hv] at hfold
      rw [someBind] at hfold
      have hfreshk0 : ∀ q ∈ acc, q.1 ≠ k0 :=
        fun q hq => hfresh k0 (List.mem_cons_self k0 ks) q hq
      have hsetk : setKey acc k0 (pathEntry k0 r0) = acc ++ [(k0, pathEntry k0 r0)] :=
        setKey_fresh _ hfreshk0
      rcases List.mem_cons.mp hk with he | hk'
      · subst he
        refine ⟨r0, hv, ?_⟩
        refine findFPP_preserves ks _ M k _ hfold ?_ ?_
        · rw [hsetk]
          exact lookupS_append_fresh _ hfreshk0
        · intro k' hk'
          exact fun he => (List.nodup_cons.mp hnd).1 (he ▸ hk')
      · refine ih _ M (List.nodup_cons.mp hnd).2 ?_ hfold k hk'
        intro k1 hk1 q hq
        rw [hsetk] at hq
        rcases List.mem_append.mp hq with hq | hq
        · exact hfresh k1 (List.mem_cons_of_mem k0 hk1) q hq
        · rw [List.mem_singleton] at hq
          subst hq
          intro he
          have he' : k0 = k1 := he
          exact (List.nodup_cons.mp hnd).1 (he' ▸ hk1)

lemma findFPP_spec_aux {g : StateKeyGraph} {M : List (String × String)} {n : String}
    (hnd : (keysG g).Nodup) (hne : ∀ k ∈ keysG g, k ≠ "")
    (hM : findFullParentPath g = some M) (hn : n ∈ keysG g) :
    (firstParent g n = none → lookupS M n = some n) ∧
    (∀ pr, firstParent g n = some pr →
      ∃ pk, lookupS M pr.1 = some pk ∧ lookupS M n = some (pk ++ "." ++ n)) := by
  rw [findFullParentPath] at hM
  have hentry := findFPP_entry (keysG g) [] M hnd
    (fun k _ q hq => absurd hq (List.not_mem_nil q)) hM
  obtain ⟨r, hv, hlook⟩ := hentry n hn
  constructor
  · intro hfp
    rw [firstParent] at hfp
    rw [visitParent_succ_root g.length hfp] at hv
    injection hv with hv
    rw [← hv] at hlook
    exact hlook
  · intro pr hfp
    rw [firstParent] at hfp
    rw [visitParent_succ_step g.length hfp] at hv
    have hpr1mem : pr.1 ∈ keysG g :=
      List.mem_map_of_mem _ (List.mem_of_find?_eq_some hfp)
    have hpr1ne : pr.1 ≠ "" := hne pr.1 hpr1mem
    obtain ⟨r', hv', hlook'⟩ := hentry pr.1 hpr1mem
    cases hin : visitParent g g.length pr.1 with
    | none =>
      rw [hin] at hv
      exact Option.noConfusion hv
    | some w =>
      rw [hin] at hv
      have hw : visitParent g (g.length + 1) pr.1 = some w :=
        visitParent_mono hin (Nat.le_succ g.length)
      rw [hw] at hv'
      injection hv' with hv'
      cases w with
      | none =>
        injection hv with hv
        refine ⟨pr.1, ?_, ?_⟩
        · rw [← hv'] at hlook'
          exact hlook'
        · rw [← hv] at hlook
          rw [show pathEntry n (some pr.1) = pr.1 ++ "." ++ n by
            rw [pathEntry, if_neg hpr1ne]] at hlook
          exact hlook
      | some q =>
        injection hv with hv
        have hqne : q ≠ "" := visitParent_result_ne_empty hne hin
        refine ⟨q ++ "." ++ pr.1, ?_, ?_⟩
        · rw [← hv'] at hlook'
          rw [show pathEntry pr.1 (some q) = q ++ "." ++ pr.1 by
            rw [pathEntry, if_neg hqne]] at hlook'
          exact hlook'
        · rw [← hv] at hlook
          rw [show pathEntry n (some (q ++ "." ++ pr.1)) = (q ++ "." ++ pr.1) ++ "." ++ n by
            rw [pathEntry, if_neg (dot_append_ne_empty q pr.1)]] at hlook
          exact hlook

/-! ### Claims about `findFullParentPath` -/

/-- Claim C6, counterexample: on the graph `{"": ["b"], b: []}` the node `b`
is nested (its first — and only — parent is the node named `""`), yet its
computed path is `"b"`, not the parent's path plus a dot plus its own name:
the outer truthiness test `parent ? parent + "." + key : key` treats the
empty parent path like a missing parent. -/
theorem claim6_counterexample :
    findFullParentPath [("", ["b"]), ("b", [])] = some [("", ""), ("b", "b")] ∧
    firstParent [("", ["b"]), ("b", [])] "b" = some ("", ["b"]) ∧
    lookupS [("", ""), ("b", "b")] "" = some "" ∧
    lookupS [("", ""), ("b", "b")] "b" = some "b" ∧
    ("b" : String) ≠ "" ++ "." ++ "b" := by
  exact ⟨rfl, rfl, rfl, rfl, by decide⟩

/-- Claim C6, amended: provided every module name in the adjacency map is a
nonempty string (and path resolution terminates), `findFullParentPath` maps
every node to its full dotted path — a node with no parent gets its own
name, and a nested node gets its (first) parent's path, a dot, then its own
name; in particular on `{cart: [saved], saved: [items], items: []}` it
returns `{cart: "cart", saved: "cart.saved", items: "cart.saved.items"}`. -/
theorem findFullParentPath_paths :
    (∀ (g : StateKeyGraph) (M : List (String × String)) (n : String),
      (keysG g).Nodup → (∀ k ∈ keysG g, k ≠ "") →
      findFullParentPath g = some M → n ∈ keysG g →
      (firstParent g n = none → lookupS M n = some n) ∧
      (∀ pr, firstParent g n = some pr →
        ∃ pk, lookupS M pr.1 = some pk ∧ lookupS M n = some (pk ++ "." ++ n))) ∧
    findFullParentPath [("cart", ["saved"]), ("saved", ["items"]), ("items", [])] =
      some [("cart", "cart"), ("saved", "cart.saved"), ("items", "cart.saved.items")] :=
  ⟨fun _ _ _ hnd hne hM hn => findFPP_spec_aux hnd hne hM hn, rfl⟩

/-- Witness for `findFullParentPath_paths` on the documented cart graph. -/
theorem findFullParentPath_paths_witness :
    ∃ pk,
      lookupS [("cart", "cart"), ("saved", "cart.saved"), ("items", "cart.saved.items")]
        "cart" = some pk ∧
      lookupS [("cart", "cart"), ("saved", "cart.saved"), ("items", "cart.saved.items")]
        "saved" = some (pk ++ "." ++ "saved") :=
  (findFullParentPath_paths.1 [("cart", ["saved"]), ("saved", ["items"]), ("items", [])]
    [("cart", "cart"), ("saved", "cart.saved"), ("items", "cart.saved.items")] "saved"
    (by decide) (by decide) rfl (by decide)).2 ("cart", ["saved"]) rfl

/-- Claim C9: when a node is listed as a child of more than one parent,
`findFullParentPath` deterministically routes the node's path through the
first parent in the map's key-enumeration order (the first key whose child
list contains the node), rather than failing: the node's entry is that
parent's path, a dot, then its own name. -/
theorem findFullParentPath_first_parent_wins (g : StateKeyGraph)
    (M : List (String × String)) (n : String) (pr prOther : String × List String)
    (hnd : (keysG g).Nodup) (hne : ∀ k ∈ keysG g, k ≠ "")
    (hM : findFullParentPath g = some M) (hn : n ∈ keysG g)
    (hfirst : firstParent g n = some pr)
    (_hother : prOther ∈ g) (_hdiff : prOther.1 ≠ pr.1)
    (_hcontains : prOther.2.contains n = true) :
    ∃ pk, lookupS M pr.1 = some pk ∧ lookupS M n = some (pk ++ "." ++ n) :=
  (findFPP_spec_aux hnd hne hM hn).2 pr hfirst

/-- Witness for `findFullParentPath_first_parent_wins`: `c` is declared a
child of both `a` (first) and `b`; its path goes through `a`. -/
theorem findFullParentPath_first_parent_wins_witness :
    ∃ pk, lookupS [("a", "a"), ("b", "b"), ("c", "a.c")] "a" = some pk ∧
      lookupS [("a", "a"), ("b", "b"), ("c", "a.c")] "c" = some (pk ++ "." ++ "c") := by
  have h := findFullParentPath_first_parent_wins [("a", ["c"]), ("b", ["c"]), ("c", [])]
    [("a", "a"), ("b", "b"), ("c", "a.c")] "c" ("a", ["c"]) ("b", ["c"])
    (by decide) (by decide) rfl (by decide) (by decide) (by decide) (by decide) (by decide)
  exact h

/-! ### Lemmas about `topologicalSort` -/

/-- A list whose consecutive entries are dependency edges of `g`. -/
def GChain (g : StateKeyGraph) (l : List String) : Prop := List.Chain' (hasEdge g) l

/-- What holds of the data carried by a circular-dependency error: the
reported ancestor chain is a genuine edge chain of the graph ending at the
node `nm` whose dependencies were being scanned, and the offending
dependency `dep` is a dependency of `nm` that already occurs in the
chain — i.e. the chain exhibits the cycle. -/
structure CircProps (g : StateKeyGraph) (dep nm : String) (anc : List String) : Prop where
  chain : GChain g anc
  nonempty : anc ≠ []
  last : anc.getLast? = some nm
  edge : hasEdge g nm dep
  mem : dep ∈ anc

/-- The invariant threaded through the depth-first traversal, relative to
the current ancestor chain `anc`: every visited node not on the chain has
already been output; the output is duplicate-free, contains only keys of
the graph, and lists every dependency of an output node strictly before
it. -/
structure SortInv (g : StateKeyGraph) (anc : List String) (st : VisitState) : Prop where
  placed : ∀ x ∈ st.visited, x ∉ anc → x ∈ st.sorted
  nodup : st.sorted.Nodup
  ord : ∀ u d, u ∈ st.sorted → hasEdge g u d →
    d ∈ st.sorted ∧ st.sorted.indexOf d < st.sorted.indexOf u
  inKeys : ∀ x ∈ st.sorted, x ∈ keysG g

/-- Postcondition of a successful `visit name ancestors` call. -/
structure VisitOk (g : StateKeyGraph) (name : String) (anc : List String)
    (st st' : VisitState) : Prop where
  inv : SortInv g anc st'
  grows : ∃ tail, st'.sorted = st.sorted ++ tail
  visitedMono : ∀ x ∈ st.visited, x ∈ st'.visited
  nameSorted : name ∈ st'.sorted

lemma mem_keysG_lookup {g : StateKeyGraph} {name : String} (h : name ∈ keysG g) :
    ∃ deps, lookupG g name = some deps := by
  rw [keysG, List.mem_map] at h
  obtain ⟨p, hp, he⟩ := h
  have hsome : (g.find? (fun q => q.1 = name)).isSome := by
    rw [List.find?_isSome]
    exact ⟨p, hp, by simpa using he⟩
  obtain ⟨q, hq⟩ := Option.isSome_iff_exists.mp hsome
  exact ⟨q.2, by rw [lookupG, hq]; rfl⟩

lemma lookupG_closed {g : StateKeyGraph} (hCW : ClosedWorld g) {name : String}
    {deps : List String} (h : lookupG g name = some deps) :
    ∀ d ∈ deps, d ∈ keysG g := by
  rw [lookupG] at h
  cases hf : g.find? (fun q => q.1 = name) with
  | none => rw [hf] at h; exact Option.noConfusion h
  | some p =>
    rw [hf] at h
    injection h with h
    subst h
    exact hCW p (List.mem_of_find?_eq_some hf)

lemma hasEdge_parent_mem {g : StateKeyGraph} {a b : String} (h : hasEdge g a b) :
    a ∈ keysG g := by
  obtain ⟨deps, hl, -⟩ := h
  rw [lookupG] at hl
  cases hf : g.find? (fun q => q.1 = a) with
  | none => rw [hf] at hl; exact Option.noConfusion hl
  | some p =>
    have hpa : p.1 = a := by simpa using List.find?_some hf
    rw [← hpa]
    exact List.mem_map_of_mem _ (List.mem_of_find?_eq_some hf)

lemma gchain_extend {g : StateKeyGraph} {anc : List String} {name dep : String}
    (hc : GChain g (anc ++ [name])) (he : hasEdge g name dep) :
    GChain g ((anc ++ [name]) ++ [dep]) := by
  rw [GChain, List.chain'_append]
  refine ⟨hc, List.chain'_singleton dep, ?_⟩
  intro x hx y hy
  rw [List.getLast?_concat, Option.mem_def] at hx
  injection hx with hx
  rw [show ([dep] : List String).head? = some dep from rfl, Option.mem_def] at hy
  injection hy with hy
  rw [← hx, ← hy]
  exact he

lemma gchain_reaches {g : StateKeyGraph} :
    ∀ {l : List String}, GChain g l → ∀ {x y : String}, x ∈ l →
      l.getLast? = some y → Reaches g x y := by
  intro l
  induction l with
  | nil => intro _ x y hx _; exact absurd hx (List.not_mem_nil x)
  | cons a l ih =>
    intro hc x y hx hlast
    cases l with
    | nil =>
      rw [List.mem_singleton] at hx
      subst hx
      simp only [List.getLast?_singleton, Option.some.injEq] at hlast
      subst hlast
      exact Reaches.refl
    | cons b t =>
      rw [GChain, List.chain'_cons] at hc
      have hlast' : (b :: t).getLast? = some y := by
        rwa [List.getLast?_cons_cons] at hlast
      rcases List.mem_cons.mp hx with he | hx'
      · subst he
        exact Reaches.head hc.1 (ih hc.2 (List.mem_cons_self b t) hlast')
      · exact ih hc.2 hx' hlast'

lemma circProps_cycle {g : StateKeyGraph} {dep nm : String} {anc : List String}
    (h : CircProps g dep nm anc) : hasCycle g :=
  ⟨nm, dep, h.edge, gchain_reaches h.chain h.mem h.last⟩

lemma reaches_indexOf_le {g : StateKeyGraph} {S : List String}
    (hord : ∀ u d, u ∈ S → hasEdge g u d → d ∈ S ∧ S.indexOf d < S.indexOf u) :
    ∀ {b a : String}, Reaches g b a → b ∈ S → a ∈ S ∧ S.indexOf a ≤ S.indexOf b := by
  intro b a hr
  induction hr with
  | refl => exact fun hb => ⟨hb, Nat.le_refl _⟩
  | head he _ ih =>
    intro hb
    have h1 := hord _ _ hb he
    have h2 := ih h1.1
    exact ⟨h2.1, Nat.le_trans h2.2 (Nat.le_of_lt h1.2)⟩

lemma sorted_no_cycle {g : StateKeyGraph} {st : VisitState}
    (hinv : SortInv g [] st) (hall : ∀ k ∈ keysG g, k ∈ st.sorted) :
    ¬ hasCycle g := by
  rintro ⟨a, b, hedge, hreach⟩
  have ha : a ∈ st.sorted := hall a (hasEdge_parent_mem hedge)
  have h1 := hinv.ord a b ha hedge
  have h2 := reaches_indexOf_le hinv.ord hreach h1.1
  omega

lemma visit_succ_notKey {g : StateKeyGraph} {name : String} {fuel : Nat}
    {anc : List String} {st : VisitState} (hdeps : lookupG g name = none) :
    visit g (fuel + 1) name anc st = .error (.notAKey name) := by
  simp only [visit, hdeps]

lemma visit_succ_deps {g : StateKeyGraph} {name : String} {fuel : Nat}
    {anc : List String} {st : VisitState} {deps : List String}
    (hdeps : lookupG g name = some deps) :
    visit g (fuel + 1) name anc st =
      (deps.foldlM
        (fun s dep =>
          if dep ∈ anc ++ [name] then
            .error (.circular dep name (anc ++ [name]))
          else if dep ∈ s.visited then pure s
          else visit g fuel dep (anc ++ [name]) s)
        { st with visited := if name ∈ st.visited then st.visited
                             else st.visited ++ [name] }) >>=
      fun st2 => pure { st2 with
        sorted := if name ∈ st2.sorted then st2.sorted
                  else st2.sorted ++ [name] } := by
  simp only [visit, hdeps]

lemma anc_length_le {g : StateKeyGraph} {anc : List String} (hnd : anc.Nodup)
    (hsub : ∀ a ∈ anc, a ∈ keysG g) :
    anc.length ≤ (keysG g).dedup.length := by
  have hsub' : anc ⊆ (keysG g).dedup := fun a ha => List.mem_dedup.mpr (hsub a ha)
  exact (hnd.subperm hsub').length_le

lemma visit_sound {g : StateKeyGraph} (hCW : ClosedWorld g) :
    ∀ (fuel : Nat) (name : String) (anc : List String) (st : VisitState),
      name ∈ keysG g → anc.Nodup → name ∉ anc → (∀ a ∈ anc, a ∈ keysG g) →
      GChain g (anc ++ [name]) →
      (keysG g).dedup.length + 1 ≤ fuel + anc.length →
      SortInv g anc st →
      (∃ st', visit g fuel name anc st = .ok st' ∧ VisitOk g name anc st st') ∨
      (∃ dep nm chain, visit g fuel name anc st = .error (.circular dep nm chain) ∧
        CircProps g dep nm chain) := by
  intro fuel
  induction fuel with
  | zero =>
    intro name anc st hname hnd hnotin hsub hchain hfuel hinv
    exfalso
    have := anc_length_le hnd hsub
    omega
  | succ fuel ihf =>
    intro name anc st hname hnd hnotin hsub hchain hfuel hinv
    obtain ⟨deps, hdeps⟩ := mem_keysG_lookup hname
    have hdepsKeys := lookupG_closed hCW hdeps
    have hedges : ∀ d ∈ deps, hasEdge g name d := fun d hd => ⟨deps, hdeps, hd⟩
    have hnameA : name ∈ anc ++ [name] :=
      List.mem_append_right anc (List.mem_singleton.mpr rfl)
    have hAnodup : (anc ++ [name]).Nodup := by
      rw [List.nodup_append]
      exact ⟨hnd, List.nodup_singleton name,
        fun a ha hb => hnotin ((List.mem_singleton.mp hb) ▸ ha)⟩
    have hAsub : ∀ a ∈ anc ++ [name], a ∈ keysG g := by
      intro a ha
      rcases List.mem_append.mp ha with h | h
      · exact hsub a h
      · rw [List.mem_singleton] at h
        exact h ▸ hname
    have hinv1 : SortInv g (anc ++ [name])
        { st with visited := if name ∈ st.visited then st.visited
                             else st.visited ++ [name] } := by
      refine ⟨?_, hinv.nodup, hinv.ord, hinv.inKeys⟩
      intro x hx hxA
      have hxanc : x ∉ anc := fun h => hxA (List.mem_append_left _ h)
      by_cases hnv : name ∈ st.visited
      · rw [if_pos hnv] at hx
        exact hinv.placed x hx hxanc
      · rw [if_neg hnv] at hx
        rcases List.mem_append.mp hx with h | h
        · exact hinv.placed x h hxanc
        · rw [List.mem_singleton] at h
          exact absurd (h ▸ hnameA) hxA
    have hfold : ∀ (ds : List String), (∀ d ∈ ds, d ∈ deps) →
        ∀ (s : VisitState), SortInv g (anc ++ [name]) s →
        (∃ s', ds.foldlM
            (fun s dep =>
              if dep ∈ anc ++ [name] then
                .error (.circular dep name (anc ++ [name]))
              else if dep ∈ s.visited then pure s
              else visit g fuel dep (anc ++ [name]) s) s = .ok s' ∧
          SortInv g (anc ++ [name]) s' ∧
          (∃ tail, s'.sorted = s.sorted ++ tail) ∧
          (∀ x ∈ s.visited, x ∈ s'.visited) ∧
          (∀ d ∈ ds, d ∈ s'.sorted ∧ d ∉ anc ++ [name])) ∨
        (∃ dep nm chain, ds.foldlM
            (fun s dep =>
              if dep ∈ anc ++ [name] then
                .error (.circular dep name (anc ++ [name]))
              else if dep ∈ s.visited then pure s
              else visit g fuel dep (anc ++ [name]) s) s =
              .error (.circular dep nm chain) ∧
          CircProps g dep nm chain) := by
      intro ds
      induction ds with
      | nil =>
        intro _ s hinvs
        left
        refine ⟨s, rfl, hinvs, ⟨[], (List.append_nil s.sorted).symm⟩,
          fun x hx => hx, fun d hd => absurd hd (List.not_mem_nil d)⟩
      | cons d ds ihds =>
        intro hds s hinvs
        have hd0 : d ∈ deps := hds d (List.mem_cons_self d ds)
        have hdstail : ∀ e ∈ ds, e ∈ deps :=
          fun e he => hds e (List.mem_cons_of_mem d he)
        by_cases hdA : d ∈ anc ++ [name]
        · right
          refine ⟨d, name, anc ++ [name], ?_, ?_⟩
          · rw [List.foldlM_cons, if_pos hdA, errorBind]
          · exact ⟨hchain, by simp, List.getLast?_concat anc, hedges d hd0, hdA⟩
        · by_cases hdv : d ∈ s.visited
          · rw [List.foldlM_cons, if_neg hdA, if_pos hdv, purePEq, okBind]
            have hdsorted : d ∈ s.sorted := hinvs.placed d hdv hdA
            rcases ihds hdstail s hinvs with
              ⟨s', hok, hinv', ⟨tail, htail⟩, hmono, hdone⟩ |
              ⟨dep, nm, chain, herr, hcirc⟩
            · left
              refine ⟨s', hok, hinv', ⟨tail, htail⟩, hmono, ?_⟩
              intro e he
              rcases List.mem_cons.mp he with h | h
              · subst h
                exact ⟨htail ▸ List.mem_append_left tail hdsorted, hdA⟩
              · exact hdone e h
            · right
              exact ⟨dep, nm, chain, herr, hcirc⟩
          · rw [List.foldlM_cons, if_neg hdA, if_neg hdv]
            have hrec := ihf d (anc ++ [name]) s (hdepsKeys d hd0) hAnodup hdA
              hAsub (gchain_extend hchain (hedges d hd0))
              (by rw [List.length_append, List.length_singleton]; omega) hinvs
            rcases hrec with ⟨s1, hok, hpost⟩ | ⟨dep, nm, chain, herr, hcirc⟩
            · rw [hok, okBind]
              rcases ihds hdstail s1 hpost.inv with
                ⟨s', hok', hinv', ⟨tail, htail⟩, hmono, hdone⟩ |
                ⟨dep, nm, chain, herr, hcirc⟩
              · left
                obtain ⟨tail1, htail1⟩ := hpost.grows
                refine ⟨s', hok', hinv', ⟨tail1 ++ tail, ?_⟩, ?_, ?_⟩
                · rw [htail, htail1, List.append_assoc]
                · exact fun x hx => hmono x (hpost.visitedMono x hx)
                · intro e he
                  rcases List.mem_cons.mp he with h | h
                  · subst h
                    exact ⟨htail ▸ List.mem_append_left tail hpost.nameSorted, hdA⟩
                  · exact hdone e h
              · right
                exact ⟨dep, nm, chain, herr, hcirc⟩
            · rw [herr, errorBind]
              right
              exact ⟨dep, nm, chain, rfl, hcirc⟩
    rcases hfold deps (fun d hd => hd) _ hinv1 with
      ⟨st2, hfok, hinv2, ⟨tail2, htail2⟩, hmono2, hdepsDone⟩ |
      ⟨dep, nm, chain, herr, hcirc⟩
    · left
      refine ⟨{ st2 with sorted := if name ∈ st2.sorted then st2.sorted
                                   else st2.sorted ++ [name] }, ?_, ?_⟩
      · rw [visit_succ_deps hdeps, hfok, okBind, purePEq]
      · have hnameDeps : ∀ d, hasEdge g name d → d ∈ st2.sorted ∧ d ∉ anc ++ [name] := by
          intro d he
          obtain ⟨deps', hl', hd'⟩ := he
          rw [hdeps] at hl'
          injection hl' with hl'
          subst hl'
          exact hdepsDone d hd'
        by_cases hns : name ∈ st2.sorted
        · rw [if_pos hns] at *
          refine ⟨⟨?_, hinv2.nodup, hinv2.ord, hinv2.inKeys⟩, ?_, ?_, ?_⟩
          · intro x hx hxanc
            by_cases hxn : x = name
            · exact hxn ▸ hns
            · refine hinv2.placed x hx ?_
              intro hxA
              rcases List.mem_append.mp hxA with h | h
              · exact hxanc h
              · exact hxn (List.mem_singleton.mp h)
          · exact ⟨tail2, htail2⟩
          · intro x hx
            refine hmono2 x ?_
            by_cases hnv : name ∈ st.visited
            · rw [if_pos hnv]; exact hx
            · rw [if_neg hnv]; exact List.mem_append_left _ hx
          · exact hns
        · rw [if_neg hns]
          refine ⟨⟨?_, ?_, ?_, ?_⟩, ?_, ?_, ?_⟩
          · intro x hx hxanc
            by_cases hxn : x = name
            · exact hxn ▸ List.mem_append_right _ (List.mem_singleton.mpr rfl)
            · refine List.mem_append_left _ (hinv2.placed x hx ?_)
              intro hxA
              rcases List.mem_append.mp hxA with h | h
              · exact hxanc h
              · exact hxn (List.mem_singleton.mp h)
          · rw [List.nodup_append]
            exact ⟨hinv2.nodup, List.nodup_singleton name,
              fun a ha hb => hns ((List.mem_singleton.mp hb) ▸ ha)⟩
          · intro u e hu hue
            rcases List.mem_append.mp hu with hu2 | hu2
            · have h1 := hinv2.ord u e hu2 hue
              refine ⟨List.mem_append_left _ h1.1, ?_⟩
              rw [List.indexOf_append_of_mem h1.1, List.indexOf_append_of_mem hu2]
              exact h1.2
            · rw [List.mem_singleton] at hu2
              subst hu2
              have h1 := hnameDeps e hue
              have hne : e ≠ u := by
                intro h
                exact h1.2 (h ▸ hnameA)
              refine ⟨List.mem_append_left _ h1.1, ?_⟩
              rw [List.indexOf_append_of_mem h1.1,
                List.indexOf_append_of_not_mem hns, List.indexOf_cons_self]
              have := List.indexOf_lt_length.mpr h1.1
              omega
          · intro x hx
            rcases List.mem_append.mp hx with h | h
            · exact hinv2.inKeys x h
            · rw [List.mem_singleton] at h
              exact h ▸ hname
          · refine ⟨tail2 ++ [name], ?_⟩
            show st2.sorted ++ [name] = st.sorted ++ (tail2 ++ [name])
            rw [htail2]
            show (st.sorted ++ tail2) ++ [name] = st.sorted ++ (tail2 ++ [name])
            rw [List.append_assoc]
          · intro x hx
            refine hmono2 x ?_
            by_cases hnv : name ∈ st.visited
            · rw [if_pos hnv]; exact hx
            · rw [if_neg hnv]; exact List.mem_append_left _ hx
          · exact List.mem_append_right _ (List.mem_singleton.mpr rfl)
    · right
      refine ⟨dep, nm, chain, ?_, hcirc⟩
      rw [visit_succ_deps hdeps, herr, errorBind]

lemma topologicalSort_eq (g : StateKeyGraph) :
    topologicalSort g =
      ((keysG g).foldlM (fun st k => visit g (g.length + 1) k [] st)
        (⟨[], []⟩ : VisitState)) >>= fun st => pure st.sorted.reverse := rfl

lemma sort_sound {g : StateKeyGraph} (hCW : ClosedWorld g) :
    (∃ st, (keysG g).foldlM (fun st k => visit g (g.length + 1) k [] st)
        (⟨[], []⟩ : VisitState) = .ok st ∧
      SortInv g [] st ∧ (∀ k ∈ keysG g, k ∈ st.sorted)) ∨
    (∃ dep nm chain, topologicalSort g = .error (.circular dep nm chain) ∧
      CircProps g dep nm chain) := by
  have hKlen : (keysG g).dedup.length ≤ g.length := by
    have h1 := (List.dedup_sublist (keysG g)).length_le
    rw [keysG, List.length_map] at h1
    exact h1
  have haux : ∀ (ks : List String), (∀ k ∈ ks, k ∈ keysG g) →
      ∀ (st : VisitState), SortInv g [] st →
      (∃ st', ks.foldlM (fun st k => visit g (g.length + 1) k [] st) st = .ok st' ∧
        SortInv g [] st' ∧ (∀ x ∈ st.sorted, x ∈ st'.sorted) ∧
        (∀ k ∈ ks, k ∈ st'.sorted)) ∨
      (∃ dep nm chain,
        ks.foldlM (fun st k => visit g (g.length + 1) k [] st) st =
          .error (.circular dep nm chain) ∧ CircProps g dep nm chain) := by
    intro ks
    induction ks with
    | nil =>
      intro _ st hinv
      left
      exact ⟨st, rfl, hinv, fun x hx => hx, fun k hk => absurd hk (List.not_mem_nil k)⟩
    | cons k ks ih =>
      intro hks st hinv
      have hk0 : k ∈ keysG g := hks k (List.mem_cons_self k ks)
      have hvs := visit_sound hCW (g.length + 1) k [] st hk0 List.nodup_nil
        (List.not_mem_nil k) (fun a ha => absurd ha (List.not_mem_nil a))
        (by rw [List.nil_append]; exact List.chain'_singleton k)
        (by simpa using hKlen) hinv
      rcases hvs with ⟨st1, hok, hpost⟩ | ⟨dep, nm, chain, herr, hcirc⟩
      · rw [List.foldlM_cons, hok, okBind]
        obtain ⟨tail1, htail1⟩ := hpost.grows
        rcases ih (fun e he => hks e (List.mem_cons_of_mem k he)) st1 hpost.inv with
          ⟨st', hok', hinv', hmono, hdone⟩ | ⟨dep, nm, chain, herr, hcirc⟩
        · left
          refine ⟨st', hok', hinv', ?_, ?_⟩
          · intro x hx
            exact hmono x (htail1 ▸ List.mem_append_left tail1 hx)
          · intro e he
            rcases List.mem_cons.mp he with h | h
            · exact h ▸ hmono k hpost.nameSorted
            · exact hdone e h
        · right
          exact ⟨dep, nm, chain, herr, hcirc⟩
      · right
        refine ⟨dep, nm, chain, ?_, hcirc⟩
        rw [List.foldlM_cons, herr, errorBind]
  have hinv0 : SortInv g [] (⟨[], []⟩ : VisitState) := by
    refine ⟨?_, List.nodup_nil, ?_, ?_⟩
    · intro x hx
      exact absurd hx (List.not_mem_nil x)
    · intro u d hu
      exact absurd hu (List.not_mem_nil u)
    · intro x hx
      exact absurd hx (List.not_mem_nil x)
  rcases haux (keysG g) (fun k hk => hk) ⟨[], []⟩ hinv0 with
    ⟨st', hok, hinv', _, hdone⟩ | ⟨dep, nm, chain, herr, hcirc⟩
  · exact Or.inl ⟨st', hok, hinv', hdone⟩
  · refine Or.inr ⟨dep, nm, chain, ?_, hcirc⟩
    rw [topologicalSort_eq, herr, errorBind]

lemma indexOf_reverse {α : Type} [DecidableEq α] {l : List α} (hnd : l.Nodup)
    {a : α} (ha : a ∈ l) :
    l.reverse.indexOf a = l.length - 1 - l.indexOf a := by
  have hi : l.indexOf a < l.length := List.indexOf_lt_length.mpr ha
  have hj : l.reverse.indexOf a < l.reverse.length :=
    List.indexOf_lt_length.mpr (List.mem_reverse.mpr ha)
  have h1 : l.reverse[l.reverse.indexOf a] = a := List.getElem_indexOf hj
  rw [List.getElem_reverse] at h1
  have h2 : l[l.indexOf a] = a := List.getElem_indexOf hi
  have h3 : l.length - 1 - l.reverse.indexOf a = l.indexOf a :=
    (hnd.getElem_inj_iff).mp (h1.trans h2.symm)
  rw [List.length_reverse] at hj
  omega

lemma indexOf_reverse_lt {l : List String} (hnd : l.Nodup) {a b : String}
    (ha : a ∈ l) (hb : b ∈ l) (h : l.indexOf a < l.indexOf b) :
    l.reverse.indexOf b < l.reverse.indexOf a := by
  rw [indexOf_reverse hnd ha, indexOf_reverse hnd hb]
  have h1 : l.indexOf a < l.length := List.indexOf_lt_length.mpr ha
  have h2 : l.indexOf b < l.length := List.indexOf_lt_length.mpr hb
  omega

/-! ### Claims about `topologicalSort` -/

/-- Claim C2: for every closed-world adjacency map containing a cycle,
`topologicalSort` fails with the circular-dependency error — whose message
names the offending dependency and spells out the full ancestor chain — and
the reported chain is a genuine edge chain of the graph ending at the node
that required the offending dependency, rather than the sort returning any
(partial) order. -/
theorem topologicalSort_cycle_error (g : StateKeyGraph) (hCW : ClosedWorld g)
    (hcyc : hasCycle g) :
    ∃ dep nm chain, topologicalSort g = .error (.circular dep nm chain) ∧
      (TopoError.circular dep nm chain).message =
        "Circular dependency \x27" ++ dep ++ "\x27 is required by \x27" ++ nm ++
          "\x27: " ++ String.intercalate " -> " chain ∧
      dep ∈ chain ∧ chain.getLast? = some nm ∧
      List.Chain' (hasEdge g) chain ∧ hasEdge g nm dep := by
  rcases sort_sound hCW with ⟨st, _, hinv, hall⟩ | ⟨dep, nm, chain, herr, hcirc⟩
  · exact absurd hcyc (sorted_no_cycle hinv hall)
  · exact ⟨dep, nm, chain, herr, rfl, hcirc.mem, hcirc.last, hcirc.chain, hcirc.edge⟩

/-- Witness for `topologicalSort_cycle_error`: the two-cycle `a ⇄ b`. -/
theorem topologicalSort_cycle_error_witness :
    ∃ dep nm chain,
      topologicalSort [("a", ["b"]), ("b", ["a"])] = .error (.circular dep nm chain) ∧
      (TopoError.circular dep nm chain).message =
        "Circular dependency \x27" ++ dep ++ "\x27 is required by \x27" ++ nm ++
          "\x27: " ++ String.intercalate " -> " chain ∧
      dep ∈ chain ∧ chain.getLast? = some nm ∧
      List.Chain' (hasEdge [("a", ["b"]), ("b", ["a"])]) chain ∧
      hasEdge [("a", ["b"]), ("b", ["a"])] nm dep :=
  topologicalSort_cycle_error [("a", ["b"]), ("b", ["a"])] (by unfold ClosedWorld; decide)
    ⟨"a", "b", ⟨["b"], rfl, by decide⟩,
      Reaches.head ⟨["a"], rfl, by decide⟩ Reaches.refl⟩

lemma g2_edge {u d : String} (h : hasEdge [("a", ["b"]), ("b", [])] u d) :
    u = "a" ∧ d = "b" := by
  obtain ⟨deps, hl, hd⟩ := h
  by_cases h1 : u = "a"
  · subst h1
    rw [show lookupG [("a", ["b"]), ("b", [])] "a" = some ["b"] from rfl] at hl
    injection hl with hl
    subst hl
    exact ⟨rfl, List.mem_singleton.mp hd⟩
  · by_cases h2 : u = "b"
    · subst h2
      rw [show lookupG [("a", ["b"]), ("b", [])] "b" = some [] from rfl] at hl
      injection hl with hl
      subst hl
      exact absurd hd (List.not_mem_nil d)
    · have hnone : lookupG [("a", ["b"]), ("b", [])] u = none := by
        rw [lookupG]
        have hfind : List.find? (fun p => p.1 = u) [("a", ["b"]), ("b", [])] = none := by
          rw [List.find?_eq_none]
          intro x hx
          rcases List.mem_cons.mp hx with he | hx2
          · subst he
            simpa using fun hh => h1 hh.symm
          · rw [List.mem_singleton] at hx2
            subst hx2
            simpa using fun hh => h2 hh.symm
        rw [hfind]
        rfl
      rw [hnone] at hl
      exact Option.noConfusion hl

lemma g2_reaches {x y : String} (h : Reaches [("a", ["b"]), ("b", [])] x y) :
    x = y ∨ (x = "a" ∧ y = "b") := by
  induction h with
  | refl => exact Or.inl rfl
  | head he _ ih =>
    obtain ⟨ha, hb⟩ := g2_edge he
    rcases ih with he2 | ⟨hb2, -⟩
    · exact Or.inr ⟨ha, he2 ▸ hb⟩
    · exact absurd (hb ▸ hb2) (by decide)

lemma g2_acyclic : ¬ hasCycle [("a", ["b"]), ("b", [])] := by
  rintro ⟨a, b, hedge, hreach⟩
  obtain ⟨ha, hb⟩ := g2_edge hedge
  subst ha
  subst hb
  rcases g2_reaches hreach with h | ⟨h, -⟩ <;> exact absurd h (by decide)

/-- Claim C4, counterexample: on the acyclic closed-world map
`{a: [b], b: []}` the sort returns `["a", "b"]` — for the edge
`parent a -> child b` the child's index (1) does not precede the parent's
index (0): the returned order is parents-before-children. -/
theorem claim4_counterexample :
    ClosedWorld [("a", ["b"]), ("b", [])] ∧
    ¬ hasCycle [("a", ["b"]), ("b", [])] ∧
    topologicalSort [("a", ["b"]), ("b", [])] = .ok ["a", "b"] ∧
    hasEdge [("a", ["b"]), ("b", [])] "a" "b" ∧
    ¬ (["a", "b"].indexOf "b" < ["a", "b"].indexOf "a") :=
  ⟨by unfold ClosedWorld; decide, g2_acyclic, rfl, ⟨["b"], rfl, by decide⟩, by decide⟩

/-- Claim C4, amended: for every acyclic closed-world adjacency map,
`topologicalSort` succeeds and returns a sequence containing every key of
the map exactly once and nothing else, and for every edge `parent -> child`
the *parent's* index precedes the child's index (the final `reverse` of the
depth-first post-order yields parents-before-children — the containers are
initialised before the states nested in them). -/
theorem topologicalSort_parents_first (g : StateKeyGraph) (hCW : ClosedWorld g)
    (hacyc : ¬ hasCycle g) :
    ∃ l, topologicalSort g = .ok l ∧
      (∀ k ∈ keysG g, l.count k = 1) ∧
      (∀ x ∈ l, x ∈ keysG g) ∧
      (∀ u d, hasEdge g u d → l.indexOf u < l.indexOf d) := by
  rcases sort_sound hCW with ⟨st, hok, hinv, hall⟩ | ⟨dep, nm, chain, _, hcirc⟩
  · refine ⟨st.sorted.reverse, ?_, ?_, ?_, ?_⟩
    · rw [topologicalSort_eq, hok, okBind, purePEq]
    · intro k hk
      rw [List.count_reverse]
      exact List.count_eq_one_of_mem hinv.nodup (hall k hk)
    · intro x hx
      rw [List.mem_reverse] at hx
      exact hinv.inKeys x hx
    · intro u d hedge
      have hu : u ∈ st.sorted := hall u (hasEdge_parent_mem hedge)
      obtain ⟨hd, hidx⟩ := hinv.ord u d hu hedge
      exact indexOf_reverse_lt hinv.nodup hd hu hidx
  · exact absurd (circProps_cycle hcirc) hacyc

/-- Witness for `topologicalSort_parents_first` on the map `{a: [b], b: []}`. -/
theorem topologicalSort_parents_first_witness :
    ∃ l, topologicalSort [("a", ["b"]), ("b", [])] = .ok l ∧
      (∀ k ∈ keysG [("a", ["b"]), ("b", [])], l.count k = 1) ∧
      (∀ x ∈ l, x ∈ keysG [("a", ["b"]), ("b", [])]) ∧
      (∀ u d, hasEdge [("a", ["b"]), ("b", [])] u d → l.indexOf u < l.indexOf d) :=
  topologicalSort_parents_first [("a", ["b"]), ("b", [])] (by unfold ClosedWorld; decide)
    g2_acyclic
